import Mathlib

/-!
Verification of the buffer/entity layer of the tfhe-rs `core_crypto` commons
(GLWE ciphertext lists, GGSW level matrices/rows, and the slice partitioning
they are built on).

The embedding models the debug/checked build: every Rust `debug_assert!` (the
`ck_dim_div` / `ck_dim_eq` checks) and every arithmetic panic (`x % 0`,
`x / 0`, `chunks_exact(0)`) is represented by an `Option` result, where `none`
means the operation panics and `some` means it returns normally.

Buffers are modelled as `List α`; machine integers only ever flow through the
buffers unchanged, so the element type stays abstract.
-/

namespace Tfhe

/-- The `Tensor` wrapper from `commons/math/tensor`: a single flat container.
(The `tensor.rs` submodule itself is not among the analyzed sources; the spec
describes it as (buffer, length derived from buffer), length immutable after
construction.) -/
structure Tensor (α : Type) where
  container : List α
deriving DecidableEq, Repr

/-- `Tensor::from_container`: wraps a container with no copy. -/
def Tensor.from_container (cont : List α) : Tensor α := ⟨cont⟩

/-- `Tensor::len`: the length of the backing buffer. -/
def Tensor.len (t : Tensor α) : Nat := t.container.length

/-- Recursion scaffold for `chunksExact`: `fuel` only bounds the recursion
depth (any value at least the buffer length yields the same result), keeping
the definition structurally recursive and hence kernel-evaluable. -/
def chunksExactAux : Nat → List α → Nat → List (List α)
  | 0, _, _ => []
  | fuel + 1, l, k =>
    if 0 < k ∧ k ≤ l.length then
      l.take k :: chunksExactAux fuel (l.drop k) k
    else
      []

/-- The chunk decomposition performed by Rust's `slice::chunks_exact(k)` (and
`chunks_exact_mut`): successive contiguous chunks of exactly `k` elements, in
buffer order, any remainder of fewer than `k` elements being dropped. -/
def chunksExact (l : List α) (k : Nat) : List (List α) :=
  chunksExactAux l.length l k

theorem chunksExactAux_of_not {fuel k : Nat} {l : List α}
    (h : ¬(0 < k ∧ k ≤ l.length)) : chunksExactAux fuel l k = [] := by
  match fuel with
  | 0 => rfl
  | fuel + 1 =>
    rw [chunksExactAux, if_neg h]

theorem chunksExactAux_irrel :
    ∀ (fuel fuel' : Nat) (l : List α) (k : Nat), l.length ≤ fuel →
      l.length ≤ fuel' → chunksExactAux fuel l k = chunksExactAux fuel' l k := by
  intro fuel
  induction fuel with
  | zero =>
    intro fuel' l k h1 _
    have : l = [] := List.length_eq_zero.1 (by omega)
    subst this
    have hno : ¬(0 < k ∧ k ≤ ([] : List α).length) := by
      simp
      omega
    rw [chunksExactAux_of_not hno]
    rw [chunksExactAux_of_not hno]
  | succ fuel ih =>
    intro fuel' l k h1 h2
    by_cases hc : 0 < k ∧ k ≤ l.length
    · obtain ⟨f2, rfl⟩ : ∃ f2, fuel' = f2 + 1 := ⟨fuel' - 1, by omega⟩
      rw [chunksExactAux, if_pos hc, chunksExactAux, if_pos hc]
      have hd : (l.drop k).length ≤ fuel := by
        simp only [List.length_drop]
        omega
      have hd2 : (l.drop k).length ≤ f2 := by
        simp only [List.length_drop]
        omega
      rw [ih f2 (l.drop k) k hd hd2]
    · rw [chunksExactAux_of_not hc, chunksExactAux_of_not hc]

theorem chunksExact_nil (k : Nat) : chunksExact ([] : List α) k = [] := rfl

theorem chunksExact_zero (l : List α) : chunksExact l 0 = [] := by
  unfold chunksExact
  exact chunksExactAux_of_not (by simp)

theorem chunksExact_of_lt {l : List α} {k : Nat} (h : l.length < k) :
    chunksExact l k = [] := by
  unfold chunksExact
  exact chunksExactAux_of_not (by omega)

theorem chunksExact_step {l : List α} {k : Nat} (hk : 0 < k) (hl : k ≤ l.length) :
    chunksExact l k = l.take k :: chunksExact (l.drop k) k := by
  unfold chunksExact
  obtain ⟨m, hm⟩ : ∃ m, l.length = m + 1 := ⟨l.length - 1, by omega⟩
  rw [hm, chunksExactAux, if_pos ⟨hk, hl⟩]
  have hd : (l.drop k).length ≤ m := by
    simp only [List.length_drop]
    omega
  rw [chunksExactAux_irrel m (l.drop k).length (l.drop k) k hd (le_refl _)]

/-- Number of chunks produced: `len / k`. -/
theorem chunksExact_length (l : List α) (k : Nat) (hk : 0 < k) :
    (chunksExact l k).length = l.length / k := by
  by_cases hl : k ≤ l.length
  · rw [chunksExact_step hk hl]
    have ih := chunksExact_length (l.drop k) k hk
    simp only [List.length_cons, ih, List.length_drop]
    rw [Nat.div_eq_sub_div hk hl]
  · rw [chunksExact_of_lt (by omega)]
    have : l.length / k = 0 := Nat.div_eq_of_lt (by omega)
    simp [this]
termination_by l.length
decreasing_by
  simp only [List.length_drop]
  omega

/-- Every chunk has exactly `k` elements. -/
theorem chunksExact_mem_length {l : List α} {k : Nat} (hk : 0 < k) :
    ∀ c ∈ chunksExact l k, c.length = k := by
  intro c hc
  by_cases hl : k ≤ l.length
  · rw [chunksExact_step hk hl] at hc
    rcases List.mem_cons.1 hc with h | h
    · subst h
      simp [List.length_take]
      omega
    · exact chunksExact_mem_length hk c h
  · rw [chunksExact_of_lt (by omega)] at hc
    simp at hc
termination_by l.length
decreasing_by
  simp only [List.length_drop]
  omega

/-- The `i`-th chunk is the sub-region of the parent at index range
`[i*k, i*k + k)`. -/
theorem chunksExact_getElem (l : List α) (k : Nat) (hk : 0 < k)
    (i : Nat) (hi : i < (chunksExact l k).length) :
    (chunksExact l k)[i] = (l.drop (i * k)).take k := by
  have hl : k ≤ l.length := by
    by_contra hl
    rw [chunksExact_of_lt (by omega)] at hi
    simp at hi
  rw [List.getElem_of_eq (chunksExact_step hk hl) hi]
  have hi2 : i < (l.take k :: chunksExact (l.drop k) k).length := by
    rw [← chunksExact_step hk hl]
    exact hi
  match i with
  | 0 => simp
  | i + 1 =>
    simp only [List.getElem_cons_succ]
    have hi3 : i < (chunksExact (l.drop k) k).length := by
      simpa using hi2
    rw [chunksExact_getElem (l.drop k) k hk i hi3]
    rw [List.drop_drop]
    congr 1
    ring_nf
termination_by l.length
decreasing_by
  simp only [List.length_drop]
  omega

/-- Concatenating the chunks in order reproduces the buffer when `k` divides
its length. -/
theorem chunksExact_join (l : List α) (k : Nat) (hk : 0 < k)
    (hdvd : k ∣ l.length) : (chunksExact l k).flatten = l := by
  by_cases hl : k ≤ l.length
  · rw [chunksExact_step hk hl]
    have hdvd2 : k ∣ (l.drop k).length := by
      simp only [List.length_drop]
      exact (Nat.dvd_sub' hdvd dvd_rfl)
    rw [List.flatten_cons, chunksExact_join (l.drop k) k hk hdvd2]
    exact List.take_append_drop k l
  · have : l.length = 0 := by
      rcases hdvd with ⟨c, hc⟩
      rcases Nat.eq_zero_or_pos c with h0 | h0
      · simp [hc, h0]
      · exfalso
        have : k ≤ k * c := Nat.le_mul_of_pos_right k h0
        omega
    have : l = [] := List.length_eq_zero.1 this
    subst this
    simp [chunksExact_nil]
termination_by l.length
decreasing_by
  simp only [List.length_drop]
  omega

/-- `<&[T] as Split>::into_chunks` / `<&mut [T] as Split>::into_chunks`
(`tensor/mod.rs`, both impls share the same arithmetic): debug-asserts
`len % chunk_size == 0` then delegates to `chunks_exact(chunk_size)`.
`none` models a panic of the checked build: `len % 0` panics in the
assertion, and `chunks_exact(0)` panics unconditionally. -/
def intoChunks (l : List α) (chunk_size : Nat) : Option (List (List α)) :=
  if chunk_size = 0 then none
  else if l.length % chunk_size ≠ 0 then none
  else some (chunksExact l chunk_size)

/-- `<&[T] as Split>::split_into` / `<&mut [T] as Split>::split_into`
(`tensor/mod.rs`): for chunk count 0 it explicitly debug-asserts the buffer
is empty and yields `chunks_exact(1)` (no chunks); otherwise it debug-asserts
`len % chunk_count == 0` and yields `chunks_exact(len / chunk_count)`; the
latter panics when the computed chunk size `len / chunk_count` is 0 (i.e. the
buffer is empty but a positive chunk count was requested). -/
def splitInto (l : List α) (chunk_count : Nat) : Option (List (List α)) :=
  if chunk_count = 0 then
    if l.length = 0 then some (chunksExact l 1) else none
  else if l.length % chunk_count ≠ 0 then none
  else if l.length / chunk_count = 0 then none
  else some (chunksExact l (l.length / chunk_count))

/-- What it means for `cs` to partition the buffer `l` into sub-regions of
stride `k`: the `i`-th sub-region is the contiguous sub-list of `l` at index
range `[i*k, i*k + k)`, those index ranges are pairwise disjoint, and their
union is the full index range `[0, l.length)` of the parent. -/
def Partition (l : List α) (k : Nat) (cs : List (List α)) : Prop :=
  (∀ (i : Nat) (hi : i < cs.length), cs[i] = (l.drop (i * k)).take k) ∧
  (∀ i j : Nat, i < cs.length → j < cs.length → i ≠ j →
    Disjoint (Finset.Ico (i * k) (i * k + k)) (Finset.Ico (j * k) (j * k + k))) ∧
  (Finset.range cs.length).biUnion (fun i => Finset.Ico (i * k) (i * k + k)) =
    Finset.range l.length

theorem chunksExact_partition (l : List α) (k : Nat) (hk : 0 < k)
    (hdvd : k ∣ l.length) : Partition l k (chunksExact l k) := by
  refine ⟨fun i hi => chunksExact_getElem l k hk i hi, ?_, ?_⟩
  · intro i j _ _ hij
    rw [Finset.disjoint_left]
    intro x hx1 hx2
    simp only [Finset.mem_Ico] at hx1 hx2
    rcases lt_or_gt_of_ne hij with h | h
    · have hle : i * k + k ≤ j * k := by
        have h2 := Nat.mul_le_mul_right k (show i + 1 ≤ j by omega)
        rw [Nat.succ_mul] at h2
        exact h2
      omega
    · have hle : j * k + k ≤ i * k := by
        have h2 := Nat.mul_le_mul_right k (show j + 1 ≤ i by omega)
        rw [Nat.succ_mul] at h2
        exact h2
      omega
  · ext x
    simp only [Finset.mem_biUnion, Finset.mem_range, Finset.mem_Ico]
    rw [chunksExact_length l k hk]
    have hdivk : l.length / k * k = l.length := Nat.div_mul_cancel hdvd
    constructor
    · rintro ⟨i, hi, _, h2⟩
      have h3 := Nat.mul_le_mul_right k (show i + 1 ≤ l.length / k by omega)
      rw [Nat.succ_mul] at h3
      omega
    · intro hx
      refine ⟨x / k, Nat.div_lt_div_of_lt_of_dvd hdvd hx, ?_, ?_⟩
      · exact Nat.div_mul_le_self x k
      · have h1 := Nat.div_add_mod x k
        have h2 := Nat.mod_lt x hk
        have h3 : k * (x / k) = x / k * k := Nat.mul_comm _ _
        omega

/-- C2: every successful `into_chunks` call (the chunk size evenly divides the
buffer length) and every successful `split_into` call (the chunk count evenly
divides it) partitions the parent buffer: each produced sub-region is the
sub-list of the parent at a contiguous index range, the ranges are pairwise
non-overlapping, and their union is the full index range of the buffer. -/
theorem split_partition_disjoint_cover (l : List α) :
    (∀ (k : Nat) (cs : List (List α)), intoChunks l k = some cs →
      Partition l k cs) ∧
    (∀ (n : Nat) (cs : List (List α)), splitInto l n = some cs →
      Partition l (l.length / n) cs) := by
  constructor
  · intro k cs h
    unfold intoChunks at h
    split_ifs at h with h1 h2
    have hcs : cs = chunksExact l k := by
      injection h with h
      exact h.symm
    subst hcs
    have hdvd : k ∣ l.length := Nat.dvd_of_mod_eq_zero (by omega)
    exact chunksExact_partition l k (by omega) hdvd
  · intro n cs h
    unfold splitInto at h
    by_cases h1 : n = 0
    · rw [if_pos h1] at h
      by_cases h2 : l.length = 0
      · -- chunk count 0 on an empty buffer: no chunks, empty parent
        rw [if_pos h2] at h
        have hl : l = [] := List.length_eq_zero.1 h2
        subst hl
        rw [chunksExact_nil] at h
        have hcs : cs = [] := by
          injection h with h
          exact h.symm
        subst hcs
        refine ⟨?_, ?_, ?_⟩
        · intro i hi
          simp at hi
        · intro i j hi
          simp at hi
        · simp
      · rw [if_neg h2] at h
        exact absurd h (by simp)
    · rw [if_neg h1] at h
      by_cases h2 : l.length % n ≠ 0
      · rw [if_pos h2] at h
        exact absurd h (by simp)
      · rw [if_neg h2] at h
        by_cases h3 : l.length / n = 0
        · rw [if_pos h3] at h
          exact absurd h (by simp)
        · rw [if_neg h3] at h
          have hcs : cs = chunksExact l (l.length / n) := by
            injection h with h
            exact h.symm
          subst hcs
          have hdvd : n ∣ l.length := Nat.dvd_of_mod_eq_zero (by omega)
          have hdvd2 : l.length / n ∣ l.length :=
            ⟨n, (Nat.div_mul_cancel hdvd).symm⟩
          exact chunksExact_partition l (l.length / n) (Nat.pos_of_ne_zero h3) hdvd2

/-- Witness for C2 at a concrete input. -/
theorem split_partition_disjoint_cover_check :
    Partition [0, 1, 2, 3] 2 [[0, 1], [2, 3]] ∧
    Partition [0, 1, 2, 3] 2 [[0, 1], [2, 3]] :=
  ⟨(split_partition_disjoint_cover [0, 1, 2, 3]).1 2 [[0, 1], [2, 3]] (by decide),
   (split_partition_disjoint_cover [0, 1, 2, 3]).2 2 [[0, 1], [2, 3]] (by decide)⟩

/-- C3: concatenating in iteration order the sub-regions produced by a
successful `into_chunks` call reproduces the original buffer exactly, and
`into_chunks` succeeds precisely when the (nonzero) chunk size evenly divides
the buffer length. -/
theorem into_chunks_concat_roundtrip (l : List α) (k : Nat) :
    (∀ cs : List (List α), intoChunks l k = some cs → cs.flatten = l) ∧
    ((intoChunks l k).isSome ↔ k ≠ 0 ∧ k ∣ l.length) := by
  constructor
  · intro cs h
    unfold intoChunks at h
    split_ifs at h with h1 h2
    have hcs : cs = chunksExact l k := by
      injection h with h
      exact h.symm
    subst hcs
    exact chunksExact_join l k (by omega) (Nat.dvd_of_mod_eq_zero (by omega))
  · unfold intoChunks
    split_ifs with h1 h2
    · simp [h1]
    · simp only [Option.isSome_none, Bool.false_eq_true, false_iff]
      intro h
      exact h2 (Nat.mod_eq_zero_of_dvd h.2)
    · simp only [Option.isSome_some, true_iff]
      exact ⟨h1, Nat.dvd_of_mod_eq_zero (by omega)⟩

/-- Witness for C3 at a concrete input. -/
theorem into_chunks_concat_roundtrip_check :
    List.flatten [[0, 1, 2], [3, 4, 5]] = [0, 1, 2, 3, 4, 5] ∧
    (intoChunks [0, 1, 2, 3, 4, 5] 3).isSome :=
  ⟨(into_chunks_concat_roundtrip [0, 1, 2, 3, 4, 5] 3).1 [[0, 1, 2], [3, 4, 5]]
      (by decide),
   (into_chunks_concat_roundtrip [0, 1, 2, 3, 4, 5] 3).2.2 ⟨by decide, by decide⟩⟩

/-- C7: `split_into` with chunk count zero succeeds exactly on the empty
buffer (yielding no chunks, with no division by zero); on a nonempty buffer
the explicit debug assertion that the buffer length is zero fails. -/
theorem split_into_zero_count (l : List α) :
    (l = [] → splitInto l 0 = some []) ∧ (l ≠ [] → splitInto l 0 = none) := by
  constructor
  · intro h
    subst h
    unfold splitInto
    simp [chunksExact_nil]
  · intro h
    unfold splitInto
    have : l.length ≠ 0 := by
      simpa using fun h2 => h (List.length_eq_zero.1 h2)
    simp [this]

/-- Witness for C7 at concrete inputs. -/
theorem split_into_zero_count_check :
    splitInto ([] : List Nat) 0 = some [] ∧ splitInto [7] 0 = none :=
  ⟨(split_into_zero_count ([] : List Nat)).1 rfl,
   (split_into_zero_count [7]).2 (by decide)⟩

/-- `GlweCiphertext` (`commons/crypto/glwe/ciphertext.rs`, not among the
analyzed sources; its two fields `tensor` and `poly_size` are visible in
`GgswLevelRow::into_glwe`, which constructs it directly). Modelled from the
spec: an entity is structurally a Tensor plus shape metadata. -/
structure GlweCiphertext (α : Type) where
  tensor : Tensor α
  poly_size : Nat
deriving DecidableEq, Repr

/-- Modelled from the spec: `GlweCiphertext::from_container` wraps an existing
buffer together with the polynomial-size metadata (spec §3 lifecycle:
wrapping an existing buffer, no copy). -/
def GlweCiphertext.from_container (cont : List α) (poly_size : Nat) :
    GlweCiphertext α :=
  ⟨Tensor.from_container cont, poly_size⟩

/-- Modelled from the spec: `GlweCiphertext::polynomial_size` reports the
stored polynomial-size metadata (doc tests in the analyzed sources:
`glwe.polynomial_size() == PolynomialSize(10)`). -/
def GlweCiphertext.polynomial_size (c : GlweCiphertext α) : Nat := c.poly_size

/-- `GlweList` (`commons/crypto/glwe/list.rs`): a flat buffer plus GLWE size
(`rlwe_size`, = glwe_dimension + 1) and polynomial size metadata. -/
structure GlweList (α : Type) where
  tensor : Tensor α
  rlwe_size : Nat
  poly_size : Nat
deriving DecidableEq, Repr

/-- `GlweList::allocate`: a fresh buffer of
`poly_size * (glwe_dimension + 1) * ciphertext_number` copies of `value`. -/
def GlweList.allocate (value : α) (poly_size glwe_dimension ciphertext_number : Nat) :
    GlweList α :=
  { tensor := Tensor.from_container
      (List.replicate (poly_size * (glwe_dimension + 1) * ciphertext_number) value)
    rlwe_size := glwe_dimension + 1
    poly_size := poly_size }

/-- `GlweList::from_container`: wraps a buffer after the `ck_dim_div` debug
assertion, which checks that the length is divisible by `rlwe_dimension + 1`
and, separately, by `poly_size`. `none` models the panic of the checked
build (including the arithmetic panic of `len % 0` when `poly_size` is 0). -/
def GlweList.from_container (cont : List α) (rlwe_dimension poly_size : Nat) :
    Option (GlweList α) :=
  if cont.length % (rlwe_dimension + 1) ≠ 0 then none
  else if poly_size = 0 then none
  else if cont.length % poly_size ≠ 0 then none
  else some
    { tensor := Tensor.from_container cont
      rlwe_size := rlwe_dimension + 1
      poly_size := poly_size }

/-- `GlweList::ciphertext_count`: re-runs the `ck_dim_div` divisibility checks
and divides the buffer length by the per-ciphertext stride
`rlwe_size * poly_size`. `none` models a panic of the checked build. -/
def GlweList.ciphertext_count (l : GlweList α) : Option Nat :=
  if l.rlwe_size = 0 ∨ l.poly_size = 0 then none
  else if l.tensor.len % l.rlwe_size ≠ 0 ∨ l.tensor.len % l.poly_size ≠ 0 then none
  else some (l.tensor.len / (l.rlwe_size * l.poly_size))

/-- `GlweList::glwe_size`: the stored GLWE size. -/
def GlweList.glwe_size (l : GlweList α) : Nat := l.rlwe_size

/-- `GlweList::polynomial_size`: the stored polynomial size. -/
def GlweList.polynomial_size (l : GlweList α) : Nat := l.poly_size

/-- `GlweList::glwe_dimension`: GLWE size minus one. -/
def GlweList.glwe_dimension (l : GlweList α) : Nat := l.rlwe_size - 1

/-- `GlweList::ciphertext_iter`: after the `ck_dim_div` checks, partitions the
buffer into sub-tensors of `rlwe_size * poly_size` elements (the
`subtensor_iter` of the tensor core, i.e. `chunks_exact` on the backing
slice) and wraps each chunk as a `GlweCiphertext` with the same polynomial
size. `none` models a panic of the checked build. -/
def GlweList.ciphertext_iter (l : GlweList α) : Option (List (GlweCiphertext α)) :=
  if l.rlwe_size = 0 ∨ l.poly_size = 0 then none
  else if l.tensor.len % l.rlwe_size ≠ 0 ∨ l.tensor.len % l.poly_size ≠ 0 then none
  else some ((chunksExact l.tensor.container (l.rlwe_size * l.poly_size)).map
    (fun sub => GlweCiphertext.from_container sub l.poly_size))

/-- C1 as stated is false: `from_container` checks divisibility of the length
by `glwe_dimension + 1` and by `polynomial_size` separately, not by their
product. A buffer of 12 elements with GLWE dimension 3 (GLWE size 4) and
polynomial size 6 is divisible by 4 and by 6 but not by their product 24;
the checked build accepts it instead of panicking. -/
theorem from_container_nonmultiple_accepted :
    ¬ ((3 + 1) * 6 ∣ (List.replicate 12 (0 : Nat)).length) ∧
    (GlweList.from_container (List.replicate 12 (0 : Nat)) 3 6).isSome = true := by
  decide

/-- C1 (amended): constructing a `GlweList` via `from_container` succeeds in a
debug/checked build exactly when the container length is divisible by
`glwe_dimension + 1` and divisible by `polynomial_size` (each factor checked
separately, with a nonzero polynomial size); in particular any length not a
multiple of one of the two factors is rejected by the assertion, but a length
divisible by both factors without being a multiple of their product is
accepted. -/
theorem from_container_checks_factors (cont : List α) (rlwe_dimension poly_size : Nat) :
    (GlweList.from_container cont rlwe_dimension poly_size).isSome = true ↔
      0 < poly_size ∧ (rlwe_dimension + 1) ∣ cont.length ∧ poly_size ∣ cont.length := by
  unfold GlweList.from_container
  by_cases h1 : cont.length % (rlwe_dimension + 1) ≠ 0
  · rw [if_pos h1]
    simp only [Option.isSome_none, Bool.false_eq_true, false_iff]
    intro h
    exact h1 (Nat.mod_eq_zero_of_dvd h.2.1)
  · rw [if_neg h1]
    by_cases h2 : poly_size = 0
    · rw [if_pos h2]
      simp [h2]
    · rw [if_neg h2]
      by_cases h3 : cont.length % poly_size ≠ 0
      · rw [if_pos h3]
        simp only [Option.isSome_none, Bool.false_eq_true, false_iff]
        intro h
        exact h3 (Nat.mod_eq_zero_of_dvd h.2.2)
      · rw [if_neg h3]
        simp only [Option.isSome_some, true_iff]
        exact ⟨Nat.pos_of_ne_zero h2,
          Nat.dvd_of_mod_eq_zero (by omega),
          Nat.dvd_of_mod_eq_zero (by omega)⟩

/-- C5: an allocated `GlweList` reports exactly the supplied shape parameters
through its accessors, its backing buffer has length
`poly_size * (glwe_dimension + 1) * ciphertext_number` (the product of the
shape dimensions) with every element equal to the supplied value, and
sequential ciphertext iteration yields exactly `ciphertext_number` items. -/
theorem allocate_reports_shape (value : α)
    (poly_size glwe_dimension ciphertext_number : Nat) (hp : 0 < poly_size) :
    (GlweList.allocate value poly_size glwe_dimension ciphertext_number).ciphertext_count
        = some ciphertext_number ∧
    (GlweList.allocate value poly_size glwe_dimension ciphertext_number).glwe_size
        = glwe_dimension + 1 ∧
    (GlweList.allocate value poly_size glwe_dimension ciphertext_number).glwe_dimension
        = glwe_dimension ∧
    (GlweList.allocate value poly_size glwe_dimension ciphertext_number).polynomial_size
        = poly_size ∧
    (GlweList.allocate value poly_size glwe_dimension ciphertext_number).tensor.len
        = poly_size * (glwe_dimension + 1) * ciphertext_number ∧
    (∀ x ∈ (GlweList.allocate value poly_size glwe_dimension
        ciphertext_number).tensor.container, x = value) ∧
    ∃ cts, (GlweList.allocate value poly_size glwe_dimension
        ciphertext_number).ciphertext_iter = some cts ∧
      cts.length = ciphertext_number := by
  have hlen : (GlweList.allocate value poly_size glwe_dimension
      ciphertext_number).tensor.len
      = poly_size * (glwe_dimension + 1) * ciphertext_number := by
    simp [GlweList.allocate, Tensor.from_container, Tensor.len]
  have hd1 : (glwe_dimension + 1) ∣
      poly_size * (glwe_dimension + 1) * ciphertext_number :=
    ⟨poly_size * ciphertext_number, by ring⟩
  have hd2 : poly_size ∣ poly_size * (glwe_dimension + 1) * ciphertext_number :=
    ⟨(glwe_dimension + 1) * ciphertext_number, by ring⟩
  have hquot : poly_size * (glwe_dimension + 1) * ciphertext_number /
      ((glwe_dimension + 1) * poly_size) = ciphertext_number := by
    rw [show poly_size * (glwe_dimension + 1) * ciphertext_number
        = ((glwe_dimension + 1) * poly_size) * ciphertext_number by ring]
    exact Nat.mul_div_cancel_left _ (by positivity)
  refine ⟨?_, rfl, ?_, rfl, hlen, ?_, ?_⟩
  · unfold GlweList.ciphertext_count
    rw [if_neg (by simp [GlweList.allocate]; omega)]
    rw [if_neg ?_]
    · rw [hlen]
      simp only [GlweList.allocate]
      rw [hquot]
    · rw [hlen]
      simp only [GlweList.allocate, not_or, not_not]
      exact ⟨Nat.mod_eq_zero_of_dvd hd1, Nat.mod_eq_zero_of_dvd hd2⟩
  · simp [GlweList.glwe_dimension, GlweList.allocate]
  · intro x hx
    simp only [GlweList.allocate, Tensor.from_container] at hx
    exact List.eq_of_mem_replicate hx
  · refine ⟨(chunksExact
        (List.replicate (poly_size * (glwe_dimension + 1) * ciphertext_number) value)
        ((glwe_dimension + 1) * poly_size)).map
        (fun sub => GlweCiphertext.from_container sub poly_size), ?_, ?_⟩
    · unfold GlweList.ciphertext_iter
      rw [if_neg (by simp [GlweList.allocate]; omega)]
      rw [if_neg ?_]
      · rfl
      · rw [hlen]
        simp only [GlweList.allocate, not_or, not_not]
        exact ⟨Nat.mod_eq_zero_of_dvd hd1, Nat.mod_eq_zero_of_dvd hd2⟩
    · rw [List.length_map]
      rw [chunksExact_length _ _ (by positivity)]
      simp only [List.length_replicate]
      exact hquot

/-- Witness for C5 at the concrete scenario of the spec: element type `u8`,
polynomial size 10, GLWE dimension 20, ciphertext count 30. -/
theorem allocate_reports_shape_check :
    (GlweList.allocate (0 : Fin 256) 10 20 30).ciphertext_count = some 30 ∧
    (GlweList.allocate (0 : Fin 256) 10 20 30).glwe_size = 21 ∧
    (GlweList.allocate (0 : Fin 256) 10 20 30).glwe_dimension = 20 ∧
    (GlweList.allocate (0 : Fin 256) 10 20 30).polynomial_size = 10 ∧
    (GlweList.allocate (0 : Fin 256) 10 20 30).tensor.len = 10 * 21 * 30 ∧
    (∀ x ∈ (GlweList.allocate (0 : Fin 256) 10 20 30).tensor.container,
      x = (0 : Fin 256)) ∧
    ∃ cts, (GlweList.allocate (0 : Fin 256) 10 20 30).ciphertext_iter = some cts ∧
      cts.length = 30 :=
  allocate_reports_shape (0 : Fin 256) 10 20 30 (by decide)

/-- `GgswLevelRow` (`commons/crypto/ggsw/levels.rs`): a flat buffer plus
polynomial size and decomposition level metadata. -/
structure GgswLevelRow (α : Type) where
  tensor : Tensor α
  poly_size : Nat
  level : Nat
deriving DecidableEq, Repr

/-- `GgswLevelRow::from_container`: wraps a buffer after the `ck_dim_div`
debug assertion that the length is divisible by `poly_size`. `none` models
the panic of the checked build (including `len % 0` when `poly_size` is 0). -/
def GgswLevelRow.from_container (cont : List α) (poly_size level : Nat) :
    Option (GgswLevelRow α) :=
  if poly_size = 0 then none
  else if cont.length % poly_size ≠ 0 then none
  else some ⟨Tensor.from_container cont, poly_size, level⟩

/-- `GgswLevelRow::polynomial_size`: the stored polynomial size. -/
def GgswLevelRow.polynomial_size (r : GgswLevelRow α) : Nat := r.poly_size

/-- `GgswLevelRow::glwe_size`: re-runs the `ck_dim_div` check and derives the
GLWE size as tensor length divided by polynomial size. `none` models a panic
of the checked build. -/
def GgswLevelRow.glwe_size (r : GgswLevelRow α) : Option Nat :=
  if r.poly_size = 0 then none
  else if r.tensor.len % r.poly_size ≠ 0 then none
  else some (r.tensor.len / r.poly_size)

/-- `GgswLevelRow::decomposition_level`: the stored level. -/
def GgswLevelRow.decomposition_level (r : GgswLevelRow α) : Nat := r.level

/-- `GgswLevelRow::into_glwe`: consumes the row and wraps the same tensor and
polynomial size as a `GlweCiphertext`, discarding only the level metadata. -/
def GgswLevelRow.into_glwe (r : GgswLevelRow α) : GlweCiphertext α :=
  { tensor := r.tensor
    poly_size := r.poly_size }

/-- C4: for every GGSW level row, `into_glwe` yields a ciphertext with the
row's polynomial size, the row's total element count, and a buffer whose
content is element-for-element the row's buffer: no copy, no transformation. -/
theorem into_glwe_preserves_row (r : GgswLevelRow α) :
    r.into_glwe.polynomial_size = r.polynomial_size ∧
    r.into_glwe.tensor.len = r.tensor.len ∧
    r.into_glwe.tensor.container = r.tensor.container :=
  ⟨rfl, rfl, rfl⟩

/-- `GgswLevelMatrix` (`commons/crypto/ggsw/levels.rs`): a flat buffer plus
polynomial size, GLWE size and decomposition level metadata. -/
structure GgswLevelMatrix (α : Type) where
  tensor : Tensor α
  poly_size : Nat
  glwe_size : Nat
  level : Nat
deriving DecidableEq, Repr

/-- `GgswLevelMatrix::from_container`: wraps a buffer after the `ck_dim_div`
debug assertion that the length is divisible by `rlwe_size` and, separately,
by `poly_size`. `none` models the panic of the checked build (including
`len % 0` when either size is 0). -/
def GgswLevelMatrix.from_container (cont : List α)
    (poly_size rlwe_size level : Nat) : Option (GgswLevelMatrix α) :=
  if rlwe_size = 0 ∨ poly_size = 0 then none
  else if cont.length % rlwe_size ≠ 0 ∨ cont.length % poly_size ≠ 0 then none
  else some ⟨Tensor.from_container cont, poly_size, rlwe_size, level⟩

/-- `GgswLevelMatrix::polynomial_size`: the stored polynomial size. -/
def GgswLevelMatrix.polynomial_size (m : GgswLevelMatrix α) : Nat := m.poly_size

/-- `GgswLevelMatrix::row_iter`: partitions the buffer into sub-tensors of
`poly_size * glwe_size` elements (the tensor core's `subtensor_iter`, i.e.
`chunks_exact` on the backing slice) and wraps each chunk as a
`GgswLevelRow` via its checked constructor. `none` models a panic of the
checked build. -/
def GgswLevelMatrix.row_iter (m : GgswLevelMatrix α) :
    Option (List (GgswLevelRow α)) :=
  (chunksExact m.tensor.container (m.poly_size * m.glwe_size)).mapM
    (fun sub => GgswLevelRow.from_container sub m.poly_size m.level)

theorem row_from_container_of_dvd {poly level : Nat} (hp : 0 < poly)
    (cs : List (List α)) (h : ∀ c ∈ cs, poly ∣ c.length) :
    cs.mapM (fun sub => GgswLevelRow.from_container sub poly level) =
      some (cs.map (fun sub => ⟨Tensor.from_container sub, poly, level⟩)) := by
  induction cs with
  | nil => rfl
  | cons c cs ih =>
    rw [List.mapM_cons]
    have hc : GgswLevelRow.from_container c poly level =
        some ⟨Tensor.from_container c, poly, level⟩ := by
      unfold GgswLevelRow.from_container
      rw [if_neg (by omega)]
      rw [if_neg (by
        simp only [not_not]
        exact Nat.mod_eq_zero_of_dvd (h c (List.mem_cons_self c cs)))]
    rw [hc, ih (fun c2 hc2 => h c2 (List.mem_cons_of_mem c hc2))]
    rfl

/-- C6: wrapping a buffer of length `10 * 7 * 7` as a GGSW level matrix with
polynomial size 10, GLWE size 7 and decomposition level 1 succeeds, and row
iteration yields exactly 7 rows, each reporting GLWE size 7 (derived as the
row's tensor length divided by the polynomial size) and polynomial size 10. -/
theorem level_matrix_row_iter_concrete (buf : List α)
    (hlen : buf.length = 10 * 7 * 7) :
    ∃ m, GgswLevelMatrix.from_container buf 10 7 1 = some m ∧
    ∃ rows, m.row_iter = some rows ∧ rows.length = 7 ∧
      ∀ r ∈ rows, r.glwe_size = some 7 ∧ r.polynomial_size = 10 := by
  refine ⟨⟨Tensor.from_container buf, 10, 7, 1⟩, ?_, ?_⟩
  · unfold GgswLevelMatrix.from_container
    rw [if_neg (by omega), if_neg (by rw [hlen]; norm_num)]
  · have hchunks : ∀ c ∈ chunksExact buf (10 * 7), c.length = 70 :=
      chunksExact_mem_length (by norm_num)
    refine ⟨(chunksExact buf (10 * 7)).map
        (fun sub => ⟨Tensor.from_container sub, 10, 1⟩), ?_, ?_, ?_⟩
    · unfold GgswLevelMatrix.row_iter
      exact row_from_container_of_dvd (by norm_num) _
        (fun c hc => by
          rw [hchunks c hc]
          exact (by norm_num : (10 : Nat) ∣ 70))
    · rw [List.length_map, chunksExact_length _ _ (by norm_num), hlen]
    · intro r hr
      obtain ⟨sub, hsub, rfl⟩ := List.mem_map.1 hr
      have hsl : sub.length = 70 := hchunks sub hsub
      constructor
      · unfold GgswLevelRow.glwe_size
        simp only [Tensor.len, Tensor.from_container, hsl]
        norm_num
      · rfl

/-- Witness for C6 at a concrete buffer. -/
theorem level_matrix_row_iter_concrete_check :
    ∃ m, GgswLevelMatrix.from_container (List.replicate 490 (0 : Nat)) 10 7 1
        = some m ∧
    ∃ rows, m.row_iter = some rows ∧ rows.length = 7 ∧
      ∀ r ∈ rows, r.glwe_size = some 7 ∧ r.polynomial_size = 10 :=
  level_matrix_row_iter_concrete (List.replicate 490 (0 : Nat))
    (by rw [List.length_replicate])

/-- The random seed newtype (`Seed(u128)` from concrete-csprng): the WASM
seeder only stores and returns it, so its numeric width is irrelevant here. -/
structure Seed where
  value : Nat
deriving DecidableEq, Repr

/-- `ConstantSeeder` (`js_on_wasm_api/mod.rs`): stores one seed at
construction. -/
structure ConstantSeeder where
  seed : Seed
deriving DecidableEq, Repr

/-- `ConstantSeeder::new`. -/
def ConstantSeeder.new (seed : Seed) : ConstantSeeder := ⟨seed⟩

/-- `<ConstantSeeder as Seeder>::seed`: takes `&mut self` but only reads the
stored seed; modelled as returning the produced seed together with the
(unchanged) successor state. -/
def ConstantSeeder.seed_call (s : ConstantSeeder) : Seed × ConstantSeeder :=
  (s.seed, s)

/-- The trace of `n` successive `seed()` calls starting from state `s`. -/
def ConstantSeeder.seedTrace : ConstantSeeder → Nat → List Seed
  | _, 0 => []
  | s, n + 1 =>
    (s.seed_call).1 :: ConstantSeeder.seedTrace (s.seed_call).2 n

/-- C10: a `ConstantSeeder` constructed from seed `s` returns exactly `s` on
every call to `seed()`: the trace of any number of successive calls is the
constant sequence, never fresh entropy. -/
theorem constant_seeder_deterministic (s : Seed) (n : Nat) :
    ConstantSeeder.seedTrace (ConstantSeeder.new s) n = List.replicate n s := by
  induction n with
  | zero => rfl
  | succ n ih =>
    rw [ConstantSeeder.seedTrace, List.replicate_succ]
    exact congrArg (s :: ·) ih

/-- Writing the constant `v` over the `i`-th stride-`k` sub-region of a
buffer: the effect of `row.as_mut_tensor().fill_with_element(v)` on the `i`-th
row produced by mutable sub-region iteration. (`Tensor::fill_with_element` is
in `tensor.rs`, not among the analyzed sources; modelled from the spec:
full-buffer fill of the sub-tensor with a constant.) -/
def writeChunk (buf : List α) (k i : Nat) (v : α) : List α :=
  buf.take (i * k) ++ List.replicate (min k (buf.length - i * k)) v ++
    buf.drop (i * k + k)

theorem writeChunk_length (buf : List α) (k i : Nat) (v : α) :
    (writeChunk buf k i v).length = buf.length := by
  unfold writeChunk
  simp only [List.length_append, List.length_take, List.length_replicate,
    List.length_drop]
  omega

theorem writeChunk_getElem? (buf : List α) (k i : Nat) (v : α)
    (hik : i * k + k ≤ buf.length) (j : Nat) :
    (writeChunk buf k i v)[j]? =
      if i * k ≤ j ∧ j < i * k + k then some v else buf[j]? := by
  unfold writeChunk
  have h1 : (buf.take (i * k)).length = i * k := by
    simp only [List.length_take]
    omega
  have h2 : (List.replicate (min k (buf.length - i * k)) v).length = k := by
    simp only [List.length_replicate]
    omega
  rw [List.getElem?_append, List.getElem?_append]
  rw [List.length_append, h1, h2]
  by_cases hc1 : j < i * k
  · rw [if_pos (by omega), if_pos (by omega), if_neg (by omega)]
    rw [List.getElem?_take]
    rw [if_pos hc1]
  · by_cases hc2 : j < i * k + k
    · rw [if_pos (by omega), if_neg (by omega), if_pos (by omega)]
      rw [List.getElem?_replicate]
      rw [if_pos (by omega)]
    · rw [if_neg (by omega), if_neg (by omega)]
      rw [List.getElem?_drop]
      congr 1
      omega

/-- The combined effect of one mutable sub-region iteration pass: each index
in `order` names a stride-`k` sub-region that gets filled with `v`, in the
order the worker handling it completes. Sequential iteration is
`order = List.range (len / k)`; any parallel schedule is a permutation of
it. -/
def chunkFill (buf : List α) (k : Nat) (v : α) (order : List Nat) : List α :=
  order.foldl (fun b i => writeChunk b k i v) buf

theorem chunkFill_length (k : Nat) (v : α) :
    ∀ (order : List Nat) (buf : List α),
      (chunkFill buf k v order).length = buf.length := by
  intro order
  induction order with
  | nil => intro buf; rfl
  | cons a rest ih =>
    intro buf
    show (chunkFill (writeChunk buf k a v) k v rest).length = buf.length
    rw [ih (writeChunk buf k a v), writeChunk_length]

theorem chunkFill_getElem? (k : Nat) (v : α) :
    ∀ (order : List Nat) (buf : List α),
      (∀ i ∈ order, i * k + k ≤ buf.length) → ∀ j : Nat,
      (chunkFill buf k v order)[j]? =
        if ∃ i ∈ order, i * k ≤ j ∧ j < i * k + k then some v else buf[j]? := by
  intro order
  induction order with
  | nil =>
    intro buf _ j
    simp [chunkFill]
  | cons a rest ih =>
    intro buf hb j
    show (chunkFill (writeChunk buf k a v) k v rest)[j]? = _
    have hb2 : ∀ i ∈ rest, i * k + k ≤ (writeChunk buf k a v).length := by
      intro i hi
      rw [writeChunk_length]
      exact hb i (List.mem_cons_of_mem a hi)
    rw [ih (writeChunk buf k a v) hb2 j]
    rw [writeChunk_getElem? buf k a v (hb a (List.mem_cons_self a rest)) j]
    by_cases hrest : ∃ i ∈ rest, i * k ≤ j ∧ j < i * k + k
    · simp [List.exists_mem_cons_iff, hrest]
    · by_cases ha : a * k ≤ j ∧ j < a * k + k
      · simp [List.exists_mem_cons_iff, hrest, ha]
      · simp [List.exists_mem_cons_iff, hrest, ha]

/-- Filling disjoint sub-regions is schedule-independent: any two visiting
orders that are permutations of one another produce identical buffers. -/
theorem chunkFill_perm (k : Nat) (v : α) (order order2 : List Nat)
    (hperm : order.Perm order2) (buf : List α)
    (hb : ∀ i ∈ order, i * k + k ≤ buf.length) :
    chunkFill buf k v order = chunkFill buf k v order2 := by
  apply List.ext_getElem?
  intro j
  rw [chunkFill_getElem? k v order buf hb j]
  rw [chunkFill_getElem? k v order2 buf (fun i hi => hb i (hperm.mem_iff.2 hi)) j]
  by_cases hc : ∃ i ∈ order, i * k ≤ j ∧ j < i * k + k
  · obtain ⟨i, hi, hij⟩ := hc
    rw [if_pos ⟨i, hi, hij⟩, if_pos ⟨i, hperm.mem_iff.1 hi, hij⟩]
  · rw [if_neg hc, if_neg (fun ⟨i, hi, hij⟩ => hc ⟨i, hperm.mem_iff.2 hi, hij⟩)]

/-- Every row index produced for a length-`len` buffer names a sub-region
lying entirely inside the buffer (for `k = 0` the range is empty). -/
theorem range_chunk_bound (k len : Nat) :
    ∀ i ∈ List.range (len / k), i * k + k ≤ len := by
  intro i hi
  have hi2 := List.mem_range.1 hi
  have h3 : (i + 1) * k ≤ (len / k) * k :=
    Nat.mul_le_mul_right _ (by omega)
  have h4 := Nat.div_mul_le_self len k
  rw [Nat.succ_mul] at h3
  omega

/-- When the stride divides the buffer length, filling every stride-`k`
sub-region with `v` leaves every buffer element equal to `v`. -/
theorem chunkFill_range_all_eq (k : Nat) (v : α) (buf : List α) (hk : 0 < k)
    (hdvd : k ∣ buf.length) :
    ∀ x ∈ chunkFill buf k v (List.range (buf.length / k)), x = v := by
  intro x hx
  obtain ⟨j, hj⟩ := List.mem_iff_getElem?.1 hx
  have hjlen : j < buf.length := by
    by_contra hjlen
    rw [List.getElem?_eq_none (by
      rw [chunkFill_length]
      omega)] at hj
    exact Option.noConfusion hj
  rw [chunkFill_getElem? k v (List.range (buf.length / k)) buf
    (range_chunk_bound k buf.length) j] at hj
  have hcov : ∃ i ∈ List.range (buf.length / k), i * k ≤ j ∧ j < i * k + k := by
    refine ⟨j / k, List.mem_range.2 (Nat.div_lt_div_of_lt_of_dvd hdvd hjlen),
      Nat.div_mul_le_self j k, ?_⟩
    have ha := Nat.div_add_mod j k
    have hb := Nat.mod_lt j hk
    have hc : k * (j / k) = j / k * k := Nat.mul_comm _ _
    omega
  rw [if_pos hcov] at hj
  injection hj with hj
  exact hj.symm

/-- `GgswLevelMatrix::row_iter_mut` followed by filling every yielded row with
the constant `v`. The underlying `subtensor_iter_mut` is in `tensor.rs`, not
among the analyzed sources; modelled from the spec: the partitioning call
debug-asserts that the buffer length is evenly divisible by the chunk size
`poly_size * glwe_size` (and `chunks_exact_mut(0)` panics on a zero stride),
then visits the disjoint stride-`k` sub-regions in buffer order. `none`
models a panic of the checked build. -/
def GgswLevelMatrix.fill_rows_seq (m : GgswLevelMatrix α) (v : α) :
    Option (GgswLevelMatrix α) :=
  if m.poly_size * m.glwe_size = 0 then none
  else if m.tensor.len % (m.poly_size * m.glwe_size) ≠ 0 then none
  else some ⟨Tensor.from_container
      (chunkFill m.tensor.container (m.poly_size * m.glwe_size) v
        (List.range (m.tensor.len / (m.poly_size * m.glwe_size)))),
    m.poly_size, m.glwe_size, m.level⟩

/-- `GgswLevelMatrix::par_row_iter_mut` followed by filling every yielded row
with the constant `v`. Like the sequential path, the parallel partitioning
(`par_subtensor_iter_mut`, `tensor.rs`, not among the analyzed sources) is
modelled from the spec: the same divisibility debug assertion guards the
call, the workers receive the same disjoint sub-regions, and their completion
order is an arbitrary permutation `order` of the row indices (the spec
guarantees the same set of sub-regions with no ordering guarantee). `none`
models a panic of the checked build. -/
def GgswLevelMatrix.fill_rows_par (m : GgswLevelMatrix α) (v : α)
    (order : List Nat) : Option (GgswLevelMatrix α) :=
  if m.poly_size * m.glwe_size = 0 then none
  else if m.tensor.len % (m.poly_size * m.glwe_size) ≠ 0 then none
  else some ⟨Tensor.from_container
      (chunkFill m.tensor.container (m.poly_size * m.glwe_size) v order),
    m.poly_size, m.glwe_size, m.level⟩

/-- C9: for every GGSW level matrix, whenever filling every row with the
constant 9 via sequential mutable row iteration returns (the partitioning
divisibility assertion passes in the checked build), every raw element of
the resulting backing buffer equals 9; and the parallel mutable row
iteration, visiting the same row indices in an arbitrary worker completion
order, panics on exactly the same matrices and otherwise produces the
identical buffer state. -/
theorem fill_rows_nine_and_par_eq_seq (m : GgswLevelMatrix Nat) :
    (∀ b : GgswLevelMatrix Nat, m.fill_rows_seq 9 = some b →
      ∀ x ∈ b.tensor.container, x = 9) ∧
    (∀ order : List Nat,
      order.Perm (List.range (m.tensor.len / (m.poly_size * m.glwe_size))) →
      m.fill_rows_par 9 order = m.fill_rows_seq 9) := by
  constructor
  · intro b hb
    unfold GgswLevelMatrix.fill_rows_seq at hb
    by_cases h1 : m.poly_size * m.glwe_size = 0
    · rw [if_pos h1] at hb
      exact absurd hb (by simp)
    · rw [if_neg h1] at hb
      by_cases h2 : m.tensor.len % (m.poly_size * m.glwe_size) ≠ 0
      · rw [if_pos h2] at hb
        exact absurd hb (by simp)
      · rw [if_neg h2] at hb
        have hbv : b = ⟨Tensor.from_container
            (chunkFill m.tensor.container (m.poly_size * m.glwe_size) 9
              (List.range (m.tensor.len / (m.poly_size * m.glwe_size)))),
            m.poly_size, m.glwe_size, m.level⟩ := by
          injection hb with hb
          exact hb.symm
        subst hbv
        have h2b : m.tensor.len % (m.poly_size * m.glwe_size) = 0 := by omega
        exact chunkFill_range_all_eq (m.poly_size * m.glwe_size) 9
          m.tensor.container (by omega)
          (Nat.dvd_of_mod_eq_zero h2b)
  · intro order hperm
    unfold GgswLevelMatrix.fill_rows_par GgswLevelMatrix.fill_rows_seq
    by_cases h1 : m.poly_size * m.glwe_size = 0
    · rw [if_pos h1, if_pos h1]
    · rw [if_neg h1, if_neg h1]
      by_cases h2 : m.tensor.len % (m.poly_size * m.glwe_size) ≠ 0
      · rw [if_pos h2, if_pos h2]
      · rw [if_neg h2, if_neg h2]
        rw [chunkFill_perm (m.poly_size * m.glwe_size) 9 order
          (List.range (m.tensor.len / (m.poly_size * m.glwe_size))) hperm
          m.tensor.container
          (fun i hi => range_chunk_bound (m.poly_size * m.glwe_size)
            m.tensor.len i (hperm.mem_iff.1 hi))]

/-- Witness for C9 at a concrete matrix: 8-element buffer, polynomial size 2,
GLWE size 2, stride 4, two rows, parallel schedule `[1, 0]`. -/
theorem fill_rows_nine_and_par_eq_seq_check :
    (∀ x ∈ (⟨Tensor.from_container (List.replicate 8 (9 : Nat)), 2, 2, 1⟩ :
        GgswLevelMatrix Nat).tensor.container, x = 9) ∧
    ((⟨Tensor.from_container (List.replicate 8 (0 : Nat)), 2, 2, 1⟩ :
        GgswLevelMatrix Nat).fill_rows_par 9 [1, 0] =
      (⟨Tensor.from_container (List.replicate 8 (0 : Nat)), 2, 2, 1⟩ :
        GgswLevelMatrix Nat).fill_rows_seq 9) :=
  ⟨(fill_rows_nine_and_par_eq_seq
      ⟨Tensor.from_container (List.replicate 8 (0 : Nat)), 2, 2, 1⟩).1
      ⟨Tensor.from_container (List.replicate 8 (9 : Nat)), 2, 2, 1⟩ (by decide),
   (fill_rows_nine_and_par_eq_seq
      ⟨Tensor.from_container (List.replicate 8 (0 : Nat)), 2, 2, 1⟩).2
      [1, 0] (by decide)⟩

/-- `PlaintextList` (`commons/crypto/encoding/plaintext.rs`, not among the
analyzed sources). Modelled from the spec: a Tensor-wrapping entity whose
count is its buffer length. -/
structure PlaintextList (α : Type) where
  tensor : Tensor α
deriving DecidableEq, Repr

/-- Modelled from the spec: `PlaintextList::count` is the number of stored
plaintexts, i.e. the backing buffer length. -/
def PlaintextList.count (pl : PlaintextList α) : Nat := pl.tensor.len

/-- Modelled from the spec: `GlweCiphertext::fill_with_trivial_encryption`
(`crypto/glwe/ciphertext.rs`, not among the analyzed sources) writes a
non-cryptographic trivial encoding of the plaintext into the ciphertext's
body, the last `p` elements of the ciphertext buffer `ct`; the
coefficient-wise encoding itself is abstracted as `encode`. -/
def fillBodyTrivial (encode : α → α) (p : Nat) (ct pt : List α) : List α :=
  ct.take (ct.length - p) ++ pt.map encode

/-- The zip loop of `GlweList::fill_with_trivial_encryption`:
`ciphertext_iter_mut()` yields exact `k`-element chunks of the list buffer,
`sublist_iter` (modelled from the spec) yields exact `p`-element chunks of
the plaintext buffer, and `zip` pairs them in buffer order, stopping when
either side runs out of exact chunks; every visited ciphertext chunk gets a
trivial encoding written into its body, the rest of the buffer is left
untouched. -/
def trivialFillLoop (encode : α → α) (k p : Nat) (buf pts : List α) : List α :=
  if _h : 0 < k ∧ 0 < p ∧ k ≤ buf.length ∧ p ≤ pts.length then
    fillBodyTrivial encode p (buf.take k) (pts.take p) ++
      trivialFillLoop encode k p (buf.drop k) (pts.drop p)
  else buf
termination_by buf.length
decreasing_by
  simp only [List.length_drop]
  omega

theorem trivialFillLoop_length (encode : α → α) (k p : Nat) (hpk : p ≤ k)
    (buf pts : List α) :
    (trivialFillLoop encode k p buf pts).length = buf.length := by
  rw [trivialFillLoop]
  split_ifs with h
  · obtain ⟨hk, hp2, hkb, hpb⟩ := h
    rw [List.length_append,
      trivialFillLoop_length encode k p hpk (buf.drop k) (pts.drop p)]
    unfold fillBodyTrivial
    simp only [List.length_append, List.length_take, List.length_map,
      List.length_drop]
    rw [Nat.min_eq_left hkb, Nat.min_eq_left hpb,
      Nat.min_eq_left (by omega : k - p ≤ k)]
    omega
  · rfl
termination_by buf.length
decreasing_by
  simp only [List.length_drop]
  omega

/-- `GlweList::fill_with_trivial_encryption`: debug-asserts that the supplied
plaintext count equals `poly_size * ciphertext_count` (after the
`ciphertext_count` checks themselves), then runs the pairing loop. `none`
models a panic of the checked build. -/
def GlweList.fill_with_trivial_encryption (encode : α → α) (l : GlweList α)
    (plaintexts : PlaintextList α) : Option (GlweList α) :=
  (l.ciphertext_count).bind (fun c =>
    if plaintexts.count ≠ l.poly_size * c then none
    else some ⟨Tensor.from_container
        (trivialFillLoop encode (l.rlwe_size * l.poly_size) l.poly_size
          l.tensor.container plaintexts.tensor.container),
      l.rlwe_size, l.poly_size⟩)

theorem trivialFillLoop_body (encode : α → α) (p d : Nat) (hp : 0 < p) :
    ∀ (c : Nat) (buf pts : List α), buf.length = (d + 1) * p * c →
      pts.length = p * c → ∀ i : Nat, i < c →
      ((trivialFillLoop encode ((d + 1) * p) p buf pts).drop
          (i * ((d + 1) * p) + d * p)).take p =
        ((pts.drop (i * p)).take p).map encode := by
  intro c
  induction c with
  | zero =>
    intro buf pts _ _ i hi
    omega
  | succ c ih =>
    intro buf pts hbuf hpts i hi
    have hk : 0 < (d + 1) * p := by positivity
    have hkb : (d + 1) * p ≤ buf.length := by
      rw [hbuf]
      calc (d + 1) * p = (d + 1) * p * 1 := by ring
        _ ≤ (d + 1) * p * (c + 1) := Nat.mul_le_mul_left _ (by omega)
    have hpb : p ≤ pts.length := by
      rw [hpts]
      calc p = p * 1 := by ring
        _ ≤ p * (c + 1) := Nat.mul_le_mul_left _ (by omega)
    have hpk : p ≤ (d + 1) * p := Nat.le_mul_of_pos_left p (by omega)
    have hsplit : (d + 1) * p = d * p + p := by ring
    rw [trivialFillLoop, dif_pos ⟨hk, hp, hkb, hpb⟩]
    have hA : (fillBodyTrivial encode p (buf.take ((d + 1) * p))
        (pts.take p)).length = (d + 1) * p := by
      unfold fillBodyTrivial
      simp only [List.length_append, List.length_take, List.length_map]
      rw [Nat.min_eq_left hkb, Nat.min_eq_left hpb,
        Nat.min_eq_left (by omega : (d + 1) * p - p ≤ (d + 1) * p)]
      omega
    have hAdrop : (fillBodyTrivial encode p (buf.take ((d + 1) * p))
        (pts.take p)).drop (d * p) = (pts.take p).map encode := by
      unfold fillBodyTrivial
      have htk : ((buf.take ((d + 1) * p)).take
          ((buf.take ((d + 1) * p)).length - p)).length = d * p := by
        simp only [List.length_take]
        rw [Nat.min_eq_left hkb,
          Nat.min_eq_left (by omega : (d + 1) * p - p ≤ (d + 1) * p)]
        omega
      rw [List.drop_append_eq_append_drop, htk]
      rw [List.drop_of_length_le (by rw [htk]), Nat.sub_self, List.drop_zero,
        List.nil_append]
    match i with
    | 0 =>
      simp only [Nat.zero_mul, Nat.zero_add]
      rw [List.drop_append_eq_append_drop, hA,
        Nat.sub_eq_zero_of_le (by omega), List.drop_zero]
      rw [List.take_append_eq_append_take, hAdrop]
      have hmaplen : ((pts.take p).map encode).length = p := by
        simp only [List.length_map, List.length_take]
        omega
      rw [List.take_of_length_le (by rw [hmaplen]), hmaplen, Nat.sub_self,
        List.take_zero, List.append_nil]
      rw [List.drop_zero]
    | i + 1 =>
      have hoff : (i + 1) * ((d + 1) * p) + d * p =
          (d + 1) * p + (i * ((d + 1) * p) + d * p) := by ring
      rw [hoff, List.drop_append_eq_append_drop, hA]
      rw [List.drop_of_length_le (by rw [hA]; omega)]
      rw [List.nil_append]
      rw [show (d + 1) * p + (i * ((d + 1) * p) + d * p) - (d + 1) * p =
          i * ((d + 1) * p) + d * p by omega]
      have hbuf2 : (buf.drop ((d + 1) * p)).length = (d + 1) * p * c := by
        simp only [List.length_drop, hbuf]
        have hexp : (d + 1) * p * (c + 1) = (d + 1) * p * c + (d + 1) * p := by
          ring
        omega
      have hpts2 : (pts.drop p).length = p * c := by
        simp only [List.length_drop, hpts]
        have hexp : p * (c + 1) = p * c + p := by ring
        omega
      rw [ih (buf.drop ((d + 1) * p)) (pts.drop p) hbuf2 hpts2 i (by omega)]
      rw [List.drop_drop]
      congr 2
      ring_nf

/-- C8: on a well-shaped `GlweList` (buffer length `(d+1) * p * c`, nonzero
polynomial size `p`), `fill_with_trivial_encryption` panics on the debug
assertion whenever the supplied plaintext count differs from
`poly_size * ciphertext_count = p * c`; and with a matching plaintext list it
succeeds, preserves the buffer length, and writes the trivial encoding of
the `i`-th consecutive `p`-element plaintext sub-list into the body (the
last `p` elements) of the `i`-th ciphertext sub-region, for every
`i < c`, pairing ciphertexts with plaintext sub-lists in buffer order. -/
theorem fill_with_trivial_encryption_pairs (encode : α → α) (d p c : Nat)
    (hp : 0 < p) (buf pts : List α)
    (hbuf : buf.length = (d + 1) * p * c) (hpts : pts.length = p * c) :
    (∀ pts2 : List α, pts2.length ≠ p * c →
      GlweList.fill_with_trivial_encryption encode
        ⟨Tensor.from_container buf, d + 1, p⟩
        ⟨Tensor.from_container pts2⟩ = none) ∧
    ∃ r : GlweList α, GlweList.fill_with_trivial_encryption encode
        ⟨Tensor.from_container buf, d + 1, p⟩
        ⟨Tensor.from_container pts⟩ = some r ∧
      r.tensor.len = buf.length ∧
      ∀ i : Nat, i < c →
        (r.tensor.container.drop (i * ((d + 1) * p) + d * p)).take p =
          ((pts.drop (i * p)).take p).map encode := by
  have hcount : (GlweList.ciphertext_count
      ⟨Tensor.from_container buf, d + 1, p⟩ : Option Nat) = some c := by
    unfold GlweList.ciphertext_count
    rw [if_neg (by simp; omega)]
    rw [if_neg ?_]
    · simp only [Tensor.len, Tensor.from_container, hbuf]
      rw [show (d + 1) * p * c = (d + 1) * p * c by rfl]
      congr 1
      rw [show (d + 1) * p * c = ((d + 1) * p) * c by ring]
      exact Nat.mul_div_cancel_left _ (by positivity)
    · simp only [Tensor.len, Tensor.from_container, hbuf, not_or, not_not]
      constructor
      · exact Nat.mod_eq_zero_of_dvd ⟨p * c, by ring⟩
      · exact Nat.mod_eq_zero_of_dvd ⟨(d + 1) * c, by ring⟩
  constructor
  · intro pts2 hpts2
    unfold GlweList.fill_with_trivial_encryption
    rw [hcount, Option.some_bind]
    rw [if_pos]
    simpa [PlaintextList.count, Tensor.len, Tensor.from_container] using hpts2
  · refine ⟨⟨Tensor.from_container
      (trivialFillLoop encode ((d + 1) * p) p buf pts), d + 1, p⟩, ?_, ?_, ?_⟩
    · unfold GlweList.fill_with_trivial_encryption
      rw [hcount, Option.some_bind]
      rw [if_neg (by
        simp only [PlaintextList.count, Tensor.len, Tensor.from_container,
          not_not]
        exact hpts)]
      rfl
    · simp only [Tensor.len, Tensor.from_container]
      exact trivialFillLoop_length encode ((d + 1) * p) p
        (Nat.le_mul_of_pos_left p (by omega)) buf pts
    · exact trivialFillLoop_body encode p d hp c buf pts hbuf hpts

/-- Witness for C8 at a concrete input: GLWE dimension 1 (size 2), polynomial
size 2, 2 ciphertexts over an 8-element buffer, plaintexts `[1,2,3,4]`,
encoding `Nat.succ`. -/
theorem fill_with_trivial_encryption_pairs_check :
    (∀ pts2 : List Nat, pts2.length ≠ 2 * 2 →
      GlweList.fill_with_trivial_encryption Nat.succ
        ⟨Tensor.from_container (List.replicate 8 (0 : Nat)), 1 + 1, 2⟩
        ⟨Tensor.from_container pts2⟩ = none) ∧
    ∃ r : GlweList Nat, GlweList.fill_with_trivial_encryption Nat.succ
        ⟨Tensor.from_container (List.replicate 8 (0 : Nat)), 1 + 1, 2⟩
        ⟨Tensor.from_container [1, 2, 3, 4]⟩ = some r ∧
      r.tensor.len = (List.replicate 8 (0 : Nat)).length ∧
      ∀ i : Nat, i < 2 →
        (r.tensor.container.drop (i * ((1 + 1) * 2) + 1 * 2)).take 2 =
          (([1, 2, 3, 4].drop (i * 2)).take 2).map Nat.succ :=
  fill_with_trivial_encryption_pairs Nat.succ 1 2 2 (by decide)
    (List.replicate 8 (0 : Nat)) [1, 2, 3, 4] (by decide) (by decide)

end Tfhe
